import Mathlib

/-!
Verification development for the symptom-to-disease matching actions
(`actions.py`): symptom extraction (`clean_symptom_input`), disease
narrowing and classification (`ActionPredictDisease.run`), and the
disease-info lookup (`ActionGetDiseaseInfo.run`).

Strings are modelled as Lean `String` / `List Char`.  The Python regex
class `[,\s]+` and `str.strip()` are modelled over the ASCII whitespace
characters (space, tab, newline, carriage return, vertical tab, form
feed), which is the class relevant to the program's inputs.
-/

namespace SehatSaathi

/-- Characters stripped by Python's `str.strip()` (ASCII whitespace). -/
def isSpaceChar (c : Char) : Bool :=
  c == ' ' || c == '\t' || c == '\n' || c == '\r' || c == Char.ofNat 11 || c == Char.ofNat 12

/-- Characters matched by the separator class `[,\s]` of `re.split`. -/
def isSepChar (c : Char) : Bool :=
  c == ',' || isSpaceChar c

/-- Python `str.strip()`: drop whitespace from both ends. -/
def stripChars (l : List Char) : List Char :=
  ((l.dropWhile isSpaceChar).reverse.dropWhile isSpaceChar).reverse

/-- Fuel-driven worker for `replaceSub`; the fuel is an upper bound on the
input length, so the `0`-fuel case is unreachable from `replaceSub`. -/
def replaceSubAux (pat rep : List Char) : Nat → List Char → List Char
  | _, [] => []
  | 0, s => s
  | fuel + 1, c :: cs =>
    if pat.isPrefixOf (c :: cs) && !pat.isEmpty then
      rep ++ replaceSubAux pat rep fuel (cs.drop (pat.length - 1))
    else
      c :: replaceSubAux pat rep fuel cs

/-- Python `str.replace(pat, rep)`: replace every occurrence of `pat`,
scanning left to right without overlap.  (The program only calls it with
non-empty patterns; an empty pattern is left as the identity here.) -/
def replaceSub (pat rep s : List Char) : List Char :=
  replaceSubAux pat rep s.length s

/-- Worker for `splitSeps`: `inSep` records whether the previous character
belonged to the current separator run, `acc` is the reversed current token. -/
def splitSepsAux : List Char → Bool → List Char → List (List Char)
  | [], _, acc => [acc.reverse]
  | c :: cs, inSep, acc =>
    if isSepChar c then
      if inSep then splitSepsAux cs true acc
      else acc.reverse :: splitSepsAux cs true []
    else
      splitSepsAux cs false (c :: acc)

/-- Python `re.split(r"[,\s]+", s)`: split on maximal runs of commas and
whitespace, keeping the (possibly empty) fragments between runs. -/
def splitSeps (s : List Char) : List (List Char) :=
  splitSepsAux s false []

/-- The filler phrases removed by `clean_symptom_input`, in source order. -/
def fillerWords : List String :=
  ["i have", "i am", "i feel", "i'm", "having", "suffering from", "got", "with", "also", "and"]

/-- Sequentially replace each filler phrase by a single space. -/
def applyFillers (l : List Char) : List Char :=
  fillerWords.foldl (fun t w => replaceSub w.data [' '] t) l

/-- Lowercase every character of the text (Python `str.lower()`). -/
def lowerChars (l : List Char) : List Char :=
  l.map Char.toLower

/-- The tokens kept by `clean_symptom_input`, as character lists: lowercase,
strip fillers, split on `[,\s]+`, keep the tokens whose stripped form is a
vocabulary member, and return those stripped forms. -/
def cleanTokens (vocab : List String) (input : List Char) : List (List Char) :=
  let text := applyFillers (lowerChars input)
  ((splitSeps text).filter (fun t => vocab.contains (String.mk (stripChars t)))).map stripChars

/-- The source's `clean_symptom_input`, parametrised by the vocabulary
(the source reads the module-level `all_symptoms`). -/
def clean_symptom_input (vocab : List String) (userInput : String) : List String :=
  (cleanTokens vocab userInput.data).map String.mk

/-- One row of `disease_symptoms.csv`: the prognosis (disease name) and the
0/1 cells of the symptom columns, as an association list. -/
structure DRow where
  prognosis : String
  cells : List (String × Nat)

/-- The symptom/disease table: the symptom column names (the columns of the
data frame other than `prognosis`) and the rows. -/
structure SymptomTable where
  cols : List String
  rows : List DRow

/-- Cell access `row[sym]` (first binding of the column in the row). -/
def getCell (r : DRow) (c : String) : Nat :=
  match r.cells.find? (fun p => p.fst == c) with
  | some p => p.snd
  | none => 0

/-- One step of the narrowing loop: `if sym in candidate_diseases.columns:
candidate_diseases = candidate_diseases[candidate_diseases[sym] == 1]`. -/
def narrowStep (cols : List String) (rows : List DRow) (sym : String) : List DRow :=
  if sym ∈ cols then rows.filter (fun r => getCell r sym == 1) else rows

/-- The rows surviving the narrowing loop over all known symptoms. -/
def candidateRows (t : SymptomTable) (known : List String) : List DRow :=
  known.foldl (narrowStep t.cols) t.rows

/-- The module-level vocabulary: every non-prognosis column name, lowercased
(`[col.lower() for col in disease_symptoms.columns if col != "prognosis"]`;
`t.cols` already excludes the prognosis column). -/
def all_symptoms (t : SymptomTable) : List String :=
  t.cols.map (fun c => String.mk (lowerChars c.data))

/-- `candidate_diseases[sym].sum()` over the candidate rows. -/
def colSum (rows : List DRow) (sym : String) : Nat :=
  (rows.map (fun r => getCell r sym)).sum

/-- The follow-up symptom collection loop of `ActionPredictDisease.run`:
append each vocabulary symptom not yet known that is a column and whose
column sum over the candidate rows is positive. -/
def remainingSymptoms (t : SymptomTable) (known : List String) (cand : List DRow) : List String :=
  (all_symptoms t).foldl
    (fun acc sym =>
      if sym ∉ known ∧ sym ∈ t.cols ∧ 0 < colSum cand sym then acc ++ [sym] else acc)
    []

/-- The three-way classification of a narrowing outcome. -/
inductive NarrowResult where
  | NoMatch : NarrowResult
  | UniqueMatch : String → NarrowResult
  | Ambiguous : List String → NarrowResult
deriving DecidableEq

/-- The decision structure of `ActionPredictDisease.run` lines 57-64:
`if not possible_diseases`, `elif len(possible_diseases) == 1`, else
ambiguous, where `possible_diseases` lists the prognosis of each
surviving row (duplicates included). -/
def narrow (t : SymptomTable) (known : List String) : NarrowResult :=
  let pd := (candidateRows t known).map DRow.prognosis
  if pd.isEmpty then NarrowResult.NoMatch
  else if pd.length == 1 then NarrowResult.UniqueMatch (pd.headD "")
  else NarrowResult.Ambiguous pd

/-- One row of `disease_info.csv`. -/
structure InfoRow where
  disease : String
  description : String
  treatment : String
  prevention : String

/-- `disease_info[disease_info["disease"] == d]` followed by `.values[0]` on
each field: the three fields of the first matching row, if any. -/
def lookupInfo (tbl : List InfoRow) (d : String) : Option (String × String × String) :=
  match tbl.find? (fun r => r.disease == d) with
  | some r => some (r.description, r.treatment, r.prevention)
  | none => none

/-- A slot value carried by a `SlotSet` event. -/
inductive SlotVal where
  | vList : List String → SlotVal
  | vStr : String → SlotVal
deriving DecidableEq

/-- Python `", ".join(l)`. -/
def joinComma : List String → String
  | [] => ""
  | h :: t => t.foldl (fun acc x => acc ++ ", " ++ x) h

/-- Retry prompt uttered when no symptom is recognized. -/
def rephrasePrompt : String :=
  "I couldn’t recognize any valid symptoms. Could you rephrase?"

/-- Message uttered when no candidate disease remains. -/
def noMatchMsg : String :=
  "Sorry, I could not match your symptoms to any known disease."

/-- Message of the unique-match path: full info when the lookup succeeds,
name-only when the info table has no row for the disease. -/
def uniqueMatchMsg (info : List InfoRow) (d : String) : String :=
  match lookupInfo info d with
  | some dtp =>
      "Based on your symptoms, the most likely disease is **" ++ d ++ "**.\n\n📋 Description: " ++
        dtp.fst ++ "\n💊 Treatment: " ++ dtp.snd.fst ++ "\n🛡 Prevention: " ++ dtp.snd.snd
  | none => "Based on your symptoms, the most likely disease is **" ++ d ++ "**."

/-- The symptoms newly extracted from the user message. -/
def newSymptoms (t : SymptomTable) (userMessage : String) : List String :=
  clean_symptom_input (all_symptoms t) userMessage

/-- `list(set(stored_symptoms + new_symptoms))`: the merge is a duplicate-free
list of the union (Python's set order is unspecified; `dedup` fixes one). -/
def updatedSymptoms (t : SymptomTable) (userMessage : String)
    (storedSymptoms : Option (List String)) : List String :=
  (storedSymptoms.getD [] ++ newSymptoms t userMessage).dedup

/-- `ActionPredictDisease.run`: from the latest user message and the stored
`symptoms` slot, produce the list of `SlotSet` events (slot name, value)
and the uttered messages. -/
def actionPredictDisease (t : SymptomTable) (info : List InfoRow)
    (userMessage : String) (storedSymptoms : Option (List String)) :
    List (String × SlotVal) × List String :=
  let new_symptoms := newSymptoms t userMessage
  if new_symptoms.isEmpty then
    ([], [rephrasePrompt])
  else
    let updated_symptoms := updatedSymptoms t userMessage storedSymptoms
    let candidate_rows := candidateRows t updated_symptoms
    let possible_diseases := candidate_rows.map DRow.prognosis
    if possible_diseases.isEmpty then
      ([("symptoms", SlotVal.vList updated_symptoms),
        ("possible_diseases", SlotVal.vList [])],
       [noMatchMsg])
    else if possible_diseases.length == 1 then
      let final_disease := possible_diseases.headD ""
      ([("symptoms", SlotVal.vList updated_symptoms),
        ("possible_diseases", SlotVal.vList [final_disease]),
        ("predicted_disease", SlotVal.vStr final_disease)],
       [uniqueMatchMsg info final_disease])
    else
      let remaining := remainingSymptoms t updated_symptoms candidate_rows
      let msg :=
        if remaining.isEmpty then
          "Based on your symptoms, possible diseases are: " ++ joinComma possible_diseases ++ "."
        else
          "I see multiple possible diseases. Do you also have any of these symptoms? " ++
            joinComma (remaining.take 5)
      ([("symptoms", SlotVal.vList updated_symptoms),
        ("possible_diseases", SlotVal.vList possible_diseases),
        ("remaining_symptoms_to_ask", SlotVal.vList (remaining.take 5))],
       [msg])

/-- Prompt uttered by `ActionGetDiseaseInfo.run` when the
`predicted_disease` slot is falsy (absent or empty). -/
def whichDiseasePrompt : String :=
  "I don’t know which disease to explain. Could you tell me?"

/-- The detail message of `ActionGetDiseaseInfo.run`. -/
def detailsMsg (dtp : String × String × String) : String :=
  "📋 Description: " ++ dtp.fst ++ "\n💊 Treatment: " ++ dtp.snd.fst ++
    "\n🛡 Prevention: " ++ dtp.snd.snd

/-- Fallback message when the info table has no row for the disease. -/
def noDetailsMsg (d : String) : String :=
  "Sorry, I don’t have details about " ++ d ++ "."

/-- `ActionGetDiseaseInfo.run`: events (always none) and uttered messages. -/
def actionGetDiseaseInfo (info : List InfoRow) (predictedDisease : Option String) :
    List (String × SlotVal) × List String :=
  match predictedDisease with
  | none => ([], [whichDiseasePrompt])
  | some d =>
    if d = "" then ([], [whichDiseasePrompt])
    else
      match lookupInfo info d with
      | some dtp => ([], [detailsMsg dtp])
      | none => ([], [noDetailsMsg d])

/-- A row survives narrowing by `syms` iff every symptom that names a column
has cell value 1 in the row. -/
def rowMatches (cols syms : List String) (r : DRow) : Bool :=
  syms.all (fun s => decide (s ∈ cols → getCell r s = 1))

/-- A pattern that contains no space character. -/
def spaceFree (w : List Char) : Prop := ∀ c ∈ w, c ≠ ' '

/-- Character-level view of the tail of a Python `", ".join`. -/
def tailJoin : List (List Char) → List Char
  | [] => []
  | x :: xs => ',' :: ' ' :: (x ++ tailJoin xs)

/-- Character-level view of Python `", ".join`. -/
def interJoin : List (List Char) → List Char
  | [] => []
  | h :: t => h ++ tailJoin t

/-- The extraction pipeline exactly as the specification words it: lowercase;
replace every occurrence of each filler phrase, in the fixed sequence, by a
single space; split on runs of comma/whitespace; trim each token; keep only
tokens that exactly equal a vocabulary member. -/
def extractSpec (vocab : List String) (rawText : String) : List String :=
  let text := applyFillers (lowerChars rawText.data)
  ((((splitSeps text).map stripChars).map String.mk).filter (fun tok => decide (tok ∈ vocab)))

/-- The list stored in the `remaining_symptoms_to_ask` slot. -/
def askList (t : SymptomTable) (msg : String) (stored : Option (List String)) : List String :=
  (remainingSymptoms t (updatedSymptoms t msg stored)
    (candidateRows t (updatedSymptoms t msg stored))).take 5

/-- Fixture: the spec's demonstration table (flu and measles). -/
def fluRow : DRow := ⟨"flu", [("fever", 1), ("cough", 1), ("rash", 0)]⟩

/-- Fixture: the measles row of the demonstration table. -/
def measlesRow : DRow := ⟨"measles", [("fever", 1), ("cough", 0), ("rash", 1)]⟩

/-- Fixture: the demonstration symptom/disease table. -/
def demoTable : SymptomTable := ⟨["fever", "cough", "rash"], [fluRow, measlesRow]⟩

/-- Fixture: a table holding two identical profile rows for the same disease. -/
def dupTable : SymptomTable :=
  ⟨["fever"], [⟨"flu", [("fever", 1)]⟩, ⟨"flu", [("fever", 1)]⟩]⟩

/-! ### Narrowing: characterization, classification, monotonicity -/

theorem rowMatches_nil (cols : List String) (r : DRow) : rowMatches cols [] r = true := rfl

theorem rowMatches_cons (cols : List String) (s : String) (ss : List String) (r : DRow) :
    rowMatches cols (s :: ss) r =
      (decide (s ∈ cols → getCell r s = 1) && rowMatches cols ss r) := by
  simp [rowMatches, List.all_cons]

theorem rowMatches_eq_decide (cols syms : List String) (r : DRow) :
    rowMatches cols syms r = decide (∀ s ∈ syms, s ∈ cols → getCell r s = 1) := by
  rw [Bool.eq_iff_iff]
  simp only [rowMatches, List.all_eq_true, decide_eq_true_eq]

theorem narrow_foldl_eq_filter (cols : List String) :
    ∀ (syms : List String) (rows : List DRow),
      syms.foldl (narrowStep cols) rows = rows.filter (rowMatches cols syms) := by
  intro syms
  induction syms with
  | nil =>
    intro rows
    have h : rows.filter (rowMatches cols []) = rows.filter (fun _ => true) :=
      List.filter_congr (fun r _ => rowMatches_nil cols r)
    rw [h, List.filter_true, List.foldl_nil]
  | cons s ss ih =>
    intro rows
    rw [List.foldl_cons, ih]
    unfold narrowStep
    by_cases h : s ∈ cols
    · rw [if_pos h, List.filter_filter]
      apply List.filter_congr
      intro r _
      rw [rowMatches_cons]
      have hd : decide (s ∈ cols → getCell r s = 1) = (getCell r s == 1) := by
        rw [Bool.eq_iff_iff]
        simp [h]
      rw [hd, Bool.and_comm]
    · rw [if_neg h]
      apply List.filter_congr
      intro r _
      rw [rowMatches_cons]
      have hd : decide (s ∈ cols → getCell r s = 1) = true := by
        simp [h]
      rw [hd, Bool.true_and]

theorem candidateRows_eq_filter (t : SymptomTable) (syms : List String) :
    candidateRows t syms = t.rows.filter (rowMatches t.cols syms) :=
  narrow_foldl_eq_filter t.cols syms t.rows

/-- C1: the rows surviving narrowing are exactly the rows whose cell value is
1 in every column named by a known symptom; a known symptom that is not a
column has no effect on the surviving row set; and the surviving row set is
independent of the order in which the known symptoms are applied. -/
theorem narrowing_characterization (t : SymptomTable) (syms : List String) :
    candidateRows t syms =
        t.rows.filter (fun r => decide (∀ s ∈ syms, s ∈ t.cols → getCell r s = 1))
      ∧ (∀ s, s ∉ t.cols → candidateRows t (s :: syms) = candidateRows t syms)
      ∧ (∀ syms', syms.Perm syms' → candidateRows t syms = candidateRows t syms') := by
  refine ⟨?_, ?_, ?_⟩
  · rw [candidateRows_eq_filter]
    exact List.filter_congr (fun r _ => rowMatches_eq_decide t.cols syms r)
  · intro s hs
    rw [candidateRows_eq_filter, candidateRows_eq_filter]
    apply List.filter_congr
    intro r _
    rw [rowMatches_cons]
    have hd : decide (s ∈ t.cols → getCell r s = 1) = true := by
      simp [hs]
    rw [hd, Bool.true_and]
  · intro syms' hp
    rw [candidateRows_eq_filter, candidateRows_eq_filter]
    apply List.filter_congr
    intro r _
    rw [rowMatches_eq_decide, rowMatches_eq_decide]
    rw [decide_eq_decide]
    constructor
    · intro h s hs
      exact h s (hp.mem_iff.mpr hs)
    · intro h s hs
      exact h s (hp.mem_iff.mp hs)

/-- Witness for C1 at the demonstration table: the filter characterization at
["fever", "cough"], inertness of the unknown symptom "chills", and
order-independence for the swapped list. -/
theorem narrowing_characterization_witness :
    candidateRows demoTable ["fever", "cough"] =
        demoTable.rows.filter
          (fun r => decide (∀ s ∈ ["fever", "cough"], s ∈ demoTable.cols → getCell r s = 1))
      ∧ candidateRows demoTable ["chills", "fever", "cough"] =
          candidateRows demoTable ["fever", "cough"]
      ∧ candidateRows demoTable ["fever", "cough"] = candidateRows demoTable ["cough", "fever"] :=
  ⟨(narrowing_characterization demoTable ["fever", "cough"]).1,
   (narrowing_characterization demoTable ["fever", "cough"]).2.1 "chills" (by decide),
   (narrowing_characterization demoTable ["fever", "cough"]).2.2 ["cough", "fever"]
     (List.Perm.swap "cough" "fever" [])⟩

/-- C7: narrowing is monotonic — adding one more symptom to the known set
(at either end of the iteration order) never increases the number of
surviving candidate rows. -/
theorem narrow_monotonic (t : SymptomTable) (syms : List String) (s : String) :
    (candidateRows t (syms ++ [s])).length ≤ (candidateRows t syms).length
      ∧ (candidateRows t (s :: syms)).length ≤ (candidateRows t syms).length := by
  constructor
  · show (List.foldl (narrowStep t.cols) t.rows (syms ++ [s])).length ≤ _
    rw [List.foldl_append]
    show (narrowStep t.cols (candidateRows t syms) s).length ≤ _
    unfold narrowStep
    by_cases h : s ∈ t.cols
    · rw [if_pos h]
      exact List.length_filter_le _ _
    · rw [if_neg h]
  · rw [candidateRows_eq_filter, candidateRows_eq_filter t syms]
    have hcong : List.filter (rowMatches t.cols (s :: syms)) t.rows =
        List.filter
          (fun r => decide (s ∈ t.cols → getCell r s = 1) && rowMatches t.cols syms r) t.rows :=
      List.filter_congr (fun r _ => rowMatches_cons t.cols s syms r)
    rw [hcong, ← List.filter_filter]
    exact List.length_filter_le _ _

/-- C2: the narrowing outcome is classified as `UniqueMatch` exactly when
exactly one row survives filtering; whenever two or more rows survive (even
if they all carry the same disease name) the outcome is `Ambiguous` —
the classification is by row count, not by distinct disease names. -/
theorem narrow_unique_iff_one_row (t : SymptomTable) (known : List String) :
    ((∃ d, narrow t known = NarrowResult.UniqueMatch d) ↔ (candidateRows t known).length = 1)
      ∧ (2 ≤ (candidateRows t known).length →
          narrow t known =
            NarrowResult.Ambiguous ((candidateRows t known).map DRow.prognosis)) := by
  unfold narrow
  rcases h : candidateRows t known with _ | ⟨r, _ | ⟨r', rest⟩⟩
  · constructor
    · simp
    · intro habs
      simp at habs
  · constructor
    · simp
    · intro habs
      simp at habs
  · constructor
    · simp
    · intro _
      simp

/-- Witness for C2 at a table with two surviving rows carrying the same
disease name: the outcome is `Ambiguous ["flu", "flu"]`, not a unique match. -/
theorem narrow_unique_iff_one_row_witness :
    narrow dupTable ["fever"] = NarrowResult.Ambiguous ["flu", "flu"] :=
  (narrow_unique_iff_one_row dupTable ["fever"]).2 (by decide)

/-! ### The extractor as described by the specification (C3) -/

theorem contains_eq_decide_mem (vocab : List String) (s : String) :
    vocab.contains s = decide (s ∈ vocab) := by
  rw [Bool.eq_iff_iff]
  simp [List.elem_iff]

/-- C3: the source's `clean_symptom_input` computes exactly the token list
described by the specification's pipeline, and it returns the empty list
precisely when no split token (after trimming) equals a vocabulary member.
It is a pure function of its two inputs. -/
theorem clean_symptom_input_spec (vocab : List String) (rawText : String) :
    clean_symptom_input vocab rawText = extractSpec vocab rawText
      ∧ (clean_symptom_input vocab rawText = [] ↔
          ∀ tok ∈ splitSeps (applyFillers (lowerChars rawText.data)),
            String.mk (stripChars tok) ∉ vocab) := by
  constructor
  · simp only [clean_symptom_input, cleanTokens, extractSpec]
    rw [List.filter_map, List.filter_map]
    apply congrArg
    apply congrArg
    apply List.filter_congr
    intro tok _
    show vocab.contains (String.mk (stripChars tok)) =
      decide (String.mk (stripChars tok) ∈ vocab)
    exact contains_eq_decide_mem vocab _
  · simp only [clean_symptom_input, cleanTokens]
    rw [List.map_eq_nil_iff, List.map_eq_nil_iff, List.filter_eq_nil_iff]
    constructor
    · intro h tok htok hmem
      have hc := h tok htok
      rw [contains_eq_decide_mem] at hc
      exact hc (decide_eq_true hmem)
    · intro h tok htok
      rw [contains_eq_decide_mem]
      intro hc
      exact h tok htok (of_decide_eq_true hc)

/-- Witness for C3 on the spec's example input, evaluating both pipelines. -/
theorem clean_symptom_input_spec_witness :
    clean_symptom_input ["fever", "cough", "rash"] "I have fever and cough" =
        extractSpec ["fever", "cough", "rash"] "I have fever and cough"
      ∧ clean_symptom_input ["fever", "cough", "rash"] "I have fever and cough" =
          ["fever", "cough"] :=
  ⟨(clean_symptom_input_spec ["fever", "cough", "rash"] "I have fever and cough").1, by rfl⟩

/-! ### The predict-disease action's slot events (C4, C5, C6) -/

/-- C5: when no recognized symptom is extracted from the user message, the
predict-disease action emits only the rephrase prompt and returns no slot
update at all (so every slot is left unchanged). -/
theorem predict_no_symptoms_no_events (t : SymptomTable) (info : List InfoRow)
    (msg : String) (stored : Option (List String))
    (h : newSymptoms t msg = []) :
    actionPredictDisease t info msg stored = ([], [rephrasePrompt]) := by
  unfold actionPredictDisease
  rw [h]
  rfl

/-- Witness for C5: "I have chills" yields no recognized symptom for the
demonstration vocabulary, so the action returns no events. -/
theorem predict_no_symptoms_no_events_witness :
    actionPredictDisease demoTable [] "I have chills" none = ([], [rephrasePrompt]) :=
  predict_no_symptoms_no_events demoTable [] "I have chills" none (by rfl)

/-- C6: on a no-match outcome (no surviving row) the action sets the
`symptoms` slot to the accumulated known symptoms and `possible_diseases`
to the empty list, and emits no event for `predicted_disease` or
`remaining_symptoms_to_ask` (those slots stay unchanged). -/
theorem predict_nomatch_events (t : SymptomTable) (info : List InfoRow)
    (msg : String) (stored : Option (List String))
    (h1 : newSymptoms t msg ≠ [])
    (h2 : candidateRows t (updatedSymptoms t msg stored) = []) :
    (actionPredictDisease t info msg stored).fst =
        [("symptoms", SlotVal.vList (updatedSymptoms t msg stored)),
         ("possible_diseases", SlotVal.vList [])]
      ∧ ∀ e ∈ (actionPredictDisease t info msg stored).fst,
          e.fst ≠ "predicted_disease" ∧ e.fst ≠ "remaining_symptoms_to_ask" := by
  have hne : (newSymptoms t msg).isEmpty = false := List.isEmpty_eq_false.mpr h1
  have hrun : actionPredictDisease t info msg stored =
      ([("symptoms", SlotVal.vList (updatedSymptoms t msg stored)),
        ("possible_diseases", SlotVal.vList [])], [noMatchMsg]) := by
    simp only [actionPredictDisease, hne, Bool.false_eq_true, if_false, h2, List.map_nil,
      List.isEmpty_nil, if_true]
  rw [hrun]
  refine ⟨rfl, ?_⟩
  intro e he
  have h3 : e = ("symptoms", SlotVal.vList (updatedSymptoms t msg stored)) ∨
      e = ("possible_diseases", SlotVal.vList []) := by
    simpa using he
  rcases h3 with rfl | rfl
  · exact ⟨show "symptoms" ≠ "predicted_disease" by decide,
      show "symptoms" ≠ "remaining_symptoms_to_ask" by decide⟩
  · exact ⟨show "possible_diseases" ≠ "predicted_disease" by decide,
      show "possible_diseases" ≠ "remaining_symptoms_to_ask" by decide⟩

/-- Witness for C6: fever, cough and rash together match no row of the
demonstration table, so the slots are set to the known symptoms and `[]`. -/
theorem predict_nomatch_events_witness :
    (actionPredictDisease demoTable [] "I have fever, cough, rash" none).fst =
        [("symptoms", SlotVal.vList (updatedSymptoms demoTable "I have fever, cough, rash" none)),
         ("possible_diseases", SlotVal.vList [])]
      ∧ ∀ e ∈ (actionPredictDisease demoTable [] "I have fever, cough, rash" none).fst,
          e.fst ≠ "predicted_disease" ∧ e.fst ≠ "remaining_symptoms_to_ask" :=
  predict_nomatch_events demoTable [] "I have fever, cough, rash" none
    (by decide) (by rfl)

theorem foldl_append_eq_filter {α : Type} (p : α → Prop) [DecidablePred p] :
    ∀ (l acc : List α),
      l.foldl (fun a x => if p x then a ++ [x] else a) acc =
        acc ++ l.filter (fun x => decide (p x)) := by
  intro l
  induction l with
  | nil =>
    intro acc
    simp
  | cons x xs ih =>
    intro acc
    rw [List.foldl_cons]
    by_cases h : p x
    · rw [if_pos h, ih, List.filter_cons, if_pos (by simpa using h)]
      simp
    · rw [if_neg h, ih, List.filter_cons, if_neg (by simpa using h)]

theorem remainingSymptoms_eq_filter (t : SymptomTable) (known : List String)
    (cand : List DRow) :
    remainingSymptoms t known cand =
      (all_symptoms t).filter
        (fun sym => decide (sym ∉ known ∧ sym ∈ t.cols ∧ 0 < colSum cand sym)) := by
  unfold remainingSymptoms
  rw [foldl_append_eq_filter]
  rfl

/-- C4: on an ambiguous outcome the `remaining_symptoms_to_ask` slot holds the
first at-most-5 vocabulary symptoms (in declared order) that are unknown,
are table columns, and have positive column sum over the candidate rows; its
length is at most 5 and it avoids the known symptoms; and it can be empty
even though the outcome is ambiguous. -/
theorem predict_ambiguous_ask_list (t : SymptomTable) (info : List InfoRow)
    (msg : String) (stored : Option (List String))
    (h1 : newSymptoms t msg ≠ [])
    (h2 : 2 ≤ (candidateRows t (updatedSymptoms t msg stored)).length) :
    ((actionPredictDisease t info msg stored).fst =
        [("symptoms", SlotVal.vList (updatedSymptoms t msg stored)),
         ("possible_diseases", SlotVal.vList
            ((candidateRows t (updatedSymptoms t msg stored)).map DRow.prognosis)),
         ("remaining_symptoms_to_ask", SlotVal.vList (askList t msg stored))]
      ∧ askList t msg stored =
          ((all_symptoms t).filter
            (fun sym => decide (sym ∉ updatedSymptoms t msg stored ∧ sym ∈ t.cols ∧
              0 < colSum (candidateRows t (updatedSymptoms t msg stored)) sym))).take 5
      ∧ (askList t msg stored).length ≤ 5
      ∧ ∀ sym ∈ askList t msg stored, sym ∉ updatedSymptoms t msg stored)
    ∧ ∃ (t' : SymptomTable) (msg' : String),
        newSymptoms t' msg' ≠ []
        ∧ 2 ≤ (candidateRows t' (updatedSymptoms t' msg' none)).length
        ∧ remainingSymptoms t' (updatedSymptoms t' msg' none)
            (candidateRows t' (updatedSymptoms t' msg' none)) = [] := by
  have hne : (newSymptoms t msg).isEmpty = false := List.isEmpty_eq_false.mpr h1
  have hpdlen : ((candidateRows t (updatedSymptoms t msg stored)).map DRow.prognosis).length =
      (candidateRows t (updatedSymptoms t msg stored)).length :=
    List.length_map _ _
  have hpdne : ((candidateRows t (updatedSymptoms t msg stored)).map DRow.prognosis).isEmpty
      = false := by
    rw [List.isEmpty_eq_false, ← List.length_pos_iff_ne_nil, hpdlen]
    omega
  have hpd1 : (((candidateRows t (updatedSymptoms t msg stored)).map DRow.prognosis).length
      == 1) = false := by
    rw [hpdlen]
    simp only [beq_eq_false_iff_ne, ne_eq]
    omega
  refine ⟨?_, ?_⟩
  · have hrun : (actionPredictDisease t info msg stored).fst =
        [("symptoms", SlotVal.vList (updatedSymptoms t msg stored)),
         ("possible_diseases", SlotVal.vList
            ((candidateRows t (updatedSymptoms t msg stored)).map DRow.prognosis)),
         ("remaining_symptoms_to_ask", SlotVal.vList (askList t msg stored))] := by
      simp only [actionPredictDisease, hne, hpdne, hpd1, Bool.false_eq_true, if_false]
      rfl
    refine ⟨hrun, ?_, List.length_take_le 5 _, ?_⟩
    · unfold askList
      rw [remainingSymptoms_eq_filter]
    · intro sym hsym
      unfold askList at hsym
      rw [remainingSymptoms_eq_filter] at hsym
      have := List.mem_of_mem_take hsym
      rw [List.mem_filter] at this
      have hprop := of_decide_eq_true this.2
      exact hprop.1
  · refine ⟨dupTable, "fever", by decide, by decide, by rfl⟩

/-- Witness for C4: with only "fever" known on the demonstration table the
outcome is ambiguous and the slot holds ["cough", "rash"], of length ≤ 5. -/
theorem predict_ambiguous_ask_list_witness :
    askList demoTable "I have fever" none = ["cough", "rash"]
      ∧ (askList demoTable "I have fever" none).length ≤ 5 :=
  ⟨by rfl,
   (predict_ambiguous_ask_list demoTable [] "I have fever" none
      (by decide) (by decide)).1.2.2.1⟩

/-! ### Info lookup and the get-info action (C9, C10) -/

theorem find?_eq_filter_head? {α : Type} (p : α → Bool) :
    ∀ l : List α, l.find? p = (l.filter p).head? := by
  intro l
  induction l with
  | nil => rfl
  | cons x xs ih =>
    by_cases h : p x = true
    · rw [List.find?_cons_of_pos xs h, List.filter_cons_of_pos h]
      rfl
    · rw [List.find?_cons_of_neg xs h, List.filter_cons_of_neg h]
      exact ih

/-- C9: the info lookup returns the three fields of the first row whose
disease column equals the queried name (and `none` when no row matches, so
an unknown name never raises); a falsy `predicted_disease` slot makes the
info action ask which disease to explain; when the lookup is empty the
info action degrades to a name-only "no details" message, and the unique
match path of the predict action degrades to a name-only message. -/
theorem lookup_first_match_and_fallbacks :
    (∀ (tbl : List InfoRow) (d : String),
        lookupInfo tbl d =
          ((tbl.filter (fun r => r.disease == d)).head?).map
            (fun r => (r.description, r.treatment, r.prevention)))
      ∧ (∀ (info : List InfoRow), actionGetDiseaseInfo info none = ([], [whichDiseasePrompt]))
      ∧ (∀ (info : List InfoRow), actionGetDiseaseInfo info (some "") =
          ([], [whichDiseasePrompt]))
      ∧ (∀ (info : List InfoRow) (d : String), d ≠ "" → lookupInfo info d = none →
          actionGetDiseaseInfo info (some d) = ([], [noDetailsMsg d]))
      ∧ (∀ (info : List InfoRow) (d : String), lookupInfo info d = none →
          uniqueMatchMsg info d =
            "Based on your symptoms, the most likely disease is **" ++ d ++ "**.") := by
  refine ⟨?_, fun _ => rfl, fun _ => rfl, ?_, ?_⟩
  · intro tbl d
    unfold lookupInfo
    rw [find?_eq_filter_head?]
    cases (tbl.filter (fun r => r.disease == d)).head? with
    | none => rfl
    | some r => rfl
  · intro info d hd hnone
    show (if d = "" then ([], [whichDiseasePrompt])
      else match lookupInfo info d with
        | some dtp => ([], [detailsMsg dtp])
        | none => ([], [noDetailsMsg d])) = ([], [noDetailsMsg d])
    rw [if_neg hd, hnone]
  · intro info d hnone
    unfold uniqueMatchMsg
    rw [hnone]

/-- Witness for C9: looking up "malaria" in an empty info table yields no
row, the info action then answers with the name-only fallback, and the
absent-slot prompt fires. -/
theorem lookup_first_match_and_fallbacks_witness :
    actionGetDiseaseInfo [] (some "malaria") = ([], [noDetailsMsg "malaria"])
      ∧ actionGetDiseaseInfo [] none = ([], [whichDiseasePrompt])
      ∧ uniqueMatchMsg [] "flu" =
          "Based on your symptoms, the most likely disease is **flu**." :=
  ⟨lookup_first_match_and_fallbacks.2.2.2.1 [] "malaria" (by decide) (by rfl),
   lookup_first_match_and_fallbacks.2.1 [],
   lookup_first_match_and_fallbacks.2.2.2.2 [] "flu" (by rfl)⟩

/-- C10: the get-disease-info action never emits a slot-update event on any
path — its event list is empty for every info table and slot value. -/
theorem get_disease_info_no_events (info : List InfoRow) (pd : Option String) :
    (actionGetDiseaseInfo info pd).fst = [] := by
  cases pd with
  | none => rfl
  | some d =>
    show ((if d = "" then (([], [whichDiseasePrompt]) :
          List (String × SlotVal) × List String)
      else match lookupInfo info d with
        | some dtp => ([], [detailsMsg dtp])
        | none => ([], [noDetailsMsg d]))).fst = []
    by_cases h : d = ""
    · rw [if_pos h]
    · rw [if_neg h]
      cases lookupInfo info d with
      | none => rfl
      | some dtp => rfl

/-! ### Idempotence of the extractor (C8): replacement infrastructure -/

theorem replaceSubAux_nil (pat rep : List Char) (n : Nat) :
    replaceSubAux pat rep n [] = [] := by
  cases n <;> rfl

theorem replaceSubAux_fuel_irrel (pat rep : List Char) :
    ∀ (n m : Nat) (s : List Char), s.length ≤ n → s.length ≤ m →
      replaceSubAux pat rep n s = replaceSubAux pat rep m s := by
  intro n
  induction n with
  | zero =>
    intro m s hn _
    have hs : s = [] := List.length_eq_zero.mp (Nat.le_zero.mp hn)
    subst hs
    rw [replaceSubAux_nil, replaceSubAux_nil]
  | succ n ih =>
    intro m s hn hm
    cases s with
    | nil => rw [replaceSubAux_nil, replaceSubAux_nil]
    | cons c cs =>
      cases m with
      | zero =>
        rw [List.length_cons] at hm
        exact absurd hm (by omega)
      | succ m =>
        rw [List.length_cons] at hn hm
        show (if pat.isPrefixOf (c :: cs) && !pat.isEmpty then
            rep ++ replaceSubAux pat rep n (cs.drop (pat.length - 1))
          else c :: replaceSubAux pat rep n cs) =
          (if pat.isPrefixOf (c :: cs) && !pat.isEmpty then
            rep ++ replaceSubAux pat rep m (cs.drop (pat.length - 1))
          else c :: replaceSubAux pat rep m cs)
        by_cases hb : (pat.isPrefixOf (c :: cs) && !pat.isEmpty) = true
        · rw [if_pos hb, if_pos hb]
          congr 1
          exact ih m _ (by rw [List.length_drop]; omega) (by rw [List.length_drop]; omega)
        · rw [if_neg hb, if_neg hb]
          congr 1
          exact ih m cs (by omega) (by omega)

theorem replaceSub_nil (pat rep : List Char) : replaceSub pat rep [] = [] := rfl

theorem replaceSub_cons (pat rep : List Char) (c : Char) (cs : List Char) :
    replaceSub pat rep (c :: cs) =
      if pat.isPrefixOf (c :: cs) && !pat.isEmpty then
        rep ++ replaceSub pat rep (cs.drop (pat.length - 1))
      else c :: replaceSub pat rep cs := by
  show replaceSubAux pat rep (c :: cs).length (c :: cs) = _
  rw [List.length_cons]
  show (if pat.isPrefixOf (c :: cs) && !pat.isEmpty then
      rep ++ replaceSubAux pat rep cs.length (cs.drop (pat.length - 1))
    else c :: replaceSubAux pat rep cs.length cs) = _
  by_cases hb : (pat.isPrefixOf (c :: cs) && !pat.isEmpty) = true
  · rw [if_pos hb, if_pos hb]
    congr 1
    exact replaceSubAux_fuel_irrel pat rep cs.length _ _
      (by rw [List.length_drop]; omega) (le_refl _)
  · rw [if_neg hb, if_neg hb]
    rfl

theorem prefix_replaceSub_bound (v : List Char) :
    ∀ (n : Nat) (t : List Char), t.length ≤ n →
      ∀ (u : List Char), spaceFree u → u <+: replaceSub v [' '] t → u <+: t := by
  intro n
  induction n with
  | zero =>
    intro t ht u _ hu
    have hs : t = [] := List.length_eq_zero.mp (Nat.le_zero.mp ht)
    subst hs
    exact hu
  | succ n ih =>
    intro t ht u husp hu
    cases t with
    | nil => exact hu
    | cons c cs =>
      rw [List.length_cons] at ht
      rw [replaceSub_cons] at hu
      by_cases hb : (v.isPrefixOf (c :: cs) && !v.isEmpty) = true
      · rw [if_pos hb, List.singleton_append] at hu
        cases u with
        | nil => exact List.nil_prefix
        | cons a u' =>
          rw [List.cons_prefix_cons] at hu
          exact absurd hu.1 (husp a (List.mem_cons_self a u'))
      · rw [if_neg hb] at hu
        cases u with
        | nil => exact List.nil_prefix
        | cons a u' =>
          rw [List.cons_prefix_cons] at hu ⊢
          refine ⟨hu.1, ?_⟩
          exact ih cs (by omega) u' (fun x hx => husp x (List.mem_cons_of_mem a hx)) hu.2

theorem prefix_replaceSub (v u t : List Char) (husp : spaceFree u)
    (hu : u <+: replaceSub v [' '] t) : u <+: t :=
  prefix_replaceSub_bound v t.length t (le_refl _) u husp hu

theorem infix_replaceSub_bound (v w : List Char) (hw : w ≠ []) (hwsp : spaceFree w) :
    ∀ (n : Nat) (t : List Char), t.length ≤ n →
      w <:+: replaceSub v [' '] t → w <:+: t := by
  intro n
  induction n with
  | zero =>
    intro t ht h
    have hs : t = [] := List.length_eq_zero.mp (Nat.le_zero.mp ht)
    subst hs
    exact h
  | succ n ih =>
    intro t ht h
    cases t with
    | nil => exact h
    | cons c cs =>
      rw [List.length_cons] at ht
      rw [replaceSub_cons] at h
      by_cases hb : (v.isPrefixOf (c :: cs) && !v.isEmpty) = true
      · rw [if_pos hb, List.singleton_append, List.infix_cons_iff] at h
        rcases h with h | h
        · cases w with
          | nil => exact absurd rfl hw
          | cons a w' =>
            rw [List.cons_prefix_cons] at h
            exact absurd h.1 (hwsp a (List.mem_cons_self a w'))
        · have h2 : w <:+: cs.drop (v.length - 1) :=
            ih _ (by rw [List.length_drop]; omega) h
          exact List.infix_cons (h2.trans (List.drop_suffix _ cs).isInfix)
      · rw [if_neg hb, List.infix_cons_iff] at h
        rcases h with h | h
        · cases w with
          | nil => exact absurd rfl hw
          | cons a w' =>
            rw [List.cons_prefix_cons] at h
            have hw' : w' <+: cs :=
              prefix_replaceSub v w' cs (fun x hx => hwsp x (List.mem_cons_of_mem a hx)) h.2
            exact (List.cons_prefix_cons.mpr ⟨h.1, hw'⟩).isInfix
        · exact List.infix_cons (ih cs (by omega) h)

theorem infix_replaceSub (v w t : List Char) (hw : w ≠ []) (hwsp : spaceFree w)
    (h : w <:+: replaceSub v [' '] t) : w <:+: t :=
  infix_replaceSub_bound v w hw hwsp t.length t (le_refl _) h

theorem not_self_infix_replaceSub (w : List Char) (hw : w ≠ []) (hwsp : spaceFree w) :
    ∀ (n : Nat) (t : List Char), t.length ≤ n → ¬ w <:+: replaceSub w [' '] t := by
  intro n
  induction n with
  | zero =>
    intro t ht h
    have hs : t = [] := List.length_eq_zero.mp (Nat.le_zero.mp ht)
    subst hs
    exact hw (List.infix_nil.mp h)
  | succ n ih =>
    intro t ht h
    cases t with
    | nil => exact hw (List.infix_nil.mp h)
    | cons c cs =>
      rw [List.length_cons] at ht
      rw [replaceSub_cons] at h
      by_cases hb : (w.isPrefixOf (c :: cs) && !w.isEmpty) = true
      · rw [if_pos hb, List.singleton_append, List.infix_cons_iff] at h
        rcases h with h | h
        · cases w with
          | nil => exact absurd rfl hw
          | cons a w' =>
            rw [List.cons_prefix_cons] at h
            exact absurd h.1 (hwsp a (List.mem_cons_self a w'))
        · exact ih _ (by rw [List.length_drop]; omega) h
      · rw [if_neg hb, List.infix_cons_iff] at h
        rcases h with h | h
        · cases w with
          | nil => exact absurd rfl hw
          | cons a w' =>
            rw [List.cons_prefix_cons] at h
            have hw' : w' <+: cs :=
              prefix_replaceSub (a :: w') w' cs
                (fun x hx => hwsp x (List.mem_cons_of_mem a hx)) h.2
            apply hb
            rw [Bool.and_eq_true]
            constructor
            · exact List.isPrefixOf_iff_prefix.mpr (List.cons_prefix_cons.mpr ⟨h.1, hw'⟩)
            · rfl
        · exact ih cs (by omega) h

theorem replaceSub_eq_self (v rep : List Char) :
    ∀ (n : Nat) (t : List Char), t.length ≤ n → ¬ v <:+: t → replaceSub v rep t = t := by
  intro n
  induction n with
  | zero =>
    intro t ht _
    have hs : t = [] := List.length_eq_zero.mp (Nat.le_zero.mp ht)
    subst hs
    rfl
  | succ n ih =>
    intro t ht h
    cases t with
    | nil => rfl
    | cons c cs =>
      rw [List.length_cons] at ht
      rw [replaceSub_cons]
      have hb : (v.isPrefixOf (c :: cs) && !v.isEmpty) ≠ true := by
        intro hb
        rw [Bool.and_eq_true] at hb
        exact h (List.isPrefixOf_iff_prefix.mp hb.1).isInfix
      rw [if_neg hb]
      congr 1
      exact ih cs (by omega) (fun hocc => h (List.infix_cons hocc))

theorem mem_replaceSub (v : List Char) :
    ∀ (n : Nat) (t : List Char), t.length ≤ n →
      ∀ a, a ∈ replaceSub v [' '] t → a ∈ t ∨ a = ' ' := by
  intro n
  induction n with
  | zero =>
    intro t ht a ha
    have hs : t = [] := List.length_eq_zero.mp (Nat.le_zero.mp ht)
    subst hs
    exact absurd ha (List.not_mem_nil a)
  | succ n ih =>
    intro t ht a ha
    cases t with
    | nil => exact absurd ha (List.not_mem_nil a)
    | cons c cs =>
      rw [List.length_cons] at ht
      rw [replaceSub_cons] at ha
      by_cases hb : (v.isPrefixOf (c :: cs) && !v.isEmpty) = true
      · rw [if_pos hb, List.singleton_append] at ha
        rcases List.mem_cons.mp ha with ha | ha
        · exact Or.inr ha
        · rcases ih _ (by rw [List.length_drop]; omega) a ha with ha | ha
          · exact Or.inl (List.mem_cons_of_mem c (List.mem_of_mem_drop ha))
          · exact Or.inr ha
      · rw [if_neg hb] at ha
        rcases List.mem_cons.mp ha with ha | ha
        · exact Or.inl (ha ▸ List.mem_cons_self c cs)
        · rcases ih cs (by omega) a ha with ha | ha
          · exact Or.inl (List.mem_cons_of_mem c ha)
          · exact Or.inr ha

theorem foldl_replace_no_occur (w : List Char) (hw : w ≠ []) (hwsp : spaceFree w) :
    ∀ (ws : List String) (t : List Char), ¬ w <:+: t →
      ¬ w <:+: ws.foldl (fun t v => replaceSub v.data [' '] t) t := by
  intro ws
  induction ws with
  | nil =>
    intro t h
    exact h
  | cons v vs ih =>
    intro t h
    rw [List.foldl_cons]
    exact ih _ (fun hocc => h (infix_replaceSub v.data w t hw hwsp hocc))

theorem foldl_replace_self_no_occur (w : String) (hw : w.data ≠ []) (hwsp : spaceFree w.data) :
    ∀ (ws : List String) (t : List Char), w ∈ ws →
      ¬ w.data <:+: ws.foldl (fun t v => replaceSub v.data [' '] t) t := by
  intro ws
  induction ws with
  | nil =>
    intro t hmem
    exact absurd hmem (List.not_mem_nil w)
  | cons v vs ih =>
    intro t hmem
    rw [List.foldl_cons]
    rcases List.mem_cons.mp hmem with rfl | hmem
    · exact foldl_replace_no_occur w.data hw hwsp vs _
        (not_self_infix_replaceSub w.data hw hwsp t.length t (le_refl _))
    · exact ih _ hmem

theorem applyFillers_no_filler (w : String) (hmem : w ∈ fillerWords)
    (hw : w.data ≠ []) (hwsp : spaceFree w.data) (t : List Char) :
    ¬ w.data <:+: applyFillers t :=
  foldl_replace_self_no_occur w hw hwsp fillerWords t hmem

theorem mem_foldl_replace :
    ∀ (ws : List String) (t : List Char) (a : Char),
      a ∈ ws.foldl (fun t v => replaceSub v.data [' '] t) t → a ∈ t ∨ a = ' ' := by
  intro ws
  induction ws with
  | nil =>
    intro t a ha
    exact Or.inl ha
  | cons v vs ih =>
    intro t a ha
    rw [List.foldl_cons] at ha
    rcases ih _ a ha with ha | ha
    · exact mem_replaceSub v.data t.length t (le_refl _) a ha
    · exact Or.inr ha

theorem mem_applyFillers (t : List Char) (a : Char) (ha : a ∈ applyFillers t) :
    a ∈ t ∨ a = ' ' :=
  mem_foldl_replace fillerWords t a ha

theorem foldl_replace_eq_self :
    ∀ (ws : List String) (t : List Char), (∀ w ∈ ws, ¬ w.data <:+: t) →
      ws.foldl (fun t v => replaceSub v.data [' '] t) t = t := by
  intro ws
  induction ws with
  | nil =>
    intro t _
    rfl
  | cons v vs ih =>
    intro t h
    rw [List.foldl_cons, replaceSub_eq_self v.data [' '] t.length t (le_refl _)
      (h v (List.mem_cons_self v vs))]
    exact ih t (fun w hw => h w (List.mem_cons_of_mem v hw))

theorem applyFillers_eq_self (t : List Char) (h : ∀ w ∈ fillerWords, ¬ w.data <:+: t) :
    applyFillers t = t :=
  foldl_replace_eq_self fillerWords t h

/-! Lowercasing facts. -/

theorem char_toNat_ofNat_valid (nv : Nat) (h : nv < 55296) : (Char.ofNat nv).toNat = nv := by
  unfold Char.ofNat
  rw [dif_pos (Or.inl h)]
  rfl

theorem toLower_not_upper (c : Char) :
    ¬(65 ≤ (Char.toLower c).toNat ∧ (Char.toLower c).toNat ≤ 90) := by
  unfold Char.toLower
  by_cases h : c.toNat ≥ 65 ∧ c.toNat ≤ 90
  · rw [if_pos h]
    rw [char_toNat_ofNat_valid (c.toNat + 32) (by omega)]
    omega
  · rw [if_neg h]
    omega

theorem toLower_eq_self_of_not_upper (c : Char)
    (h : ¬(c.toNat ≥ 65 ∧ c.toNat ≤ 90)) : Char.toLower c = c := by
  unfold Char.toLower
  rw [if_neg h]

theorem toLower_idem (c : Char) : Char.toLower (Char.toLower c) = Char.toLower c :=
  toLower_eq_self_of_not_upper (Char.toLower c) (toLower_not_upper c)

/-! splitSeps facts. -/

theorem splitSepsAux_tokens_sepFree :
    ∀ (s : List Char) (inSep : Bool) (acc : List Char),
      (∀ c ∈ acc, isSepChar c = false) →
      ∀ tok ∈ splitSepsAux s inSep acc, ∀ c ∈ tok, isSepChar c = false := by
  intro s
  induction s with
  | nil =>
    intro inSep acc hacc tok htok c hc
    have htok2 : tok = acc.reverse := List.mem_singleton.mp htok
    subst htok2
    exact hacc c (List.mem_reverse.mp hc)
  | cons ch cs ih =>
    intro inSep acc hacc tok htok c hc
    simp only [splitSepsAux] at htok
    by_cases hsep : isSepChar ch = true
    · rw [if_pos hsep] at htok
      cases inSep with
      | true =>
        rw [if_pos rfl] at htok
        exact ih true acc hacc tok htok c hc
      | false =>
        rw [if_neg (by simp)] at htok
        rcases List.mem_cons.mp htok with htok | htok
        · subst htok
          exact hacc c (List.mem_reverse.mp hc)
        · exact ih true [] (fun x hx => absurd hx (List.not_mem_nil x)) tok htok c hc
    · rw [if_neg hsep] at htok
      refine ih false (ch :: acc) ?_ tok htok c hc
      intro x hx
      rcases List.mem_cons.mp hx with rfl | hx
      · exact Bool.eq_false_iff.mpr hsep
      · exact hacc x hx

theorem splitSeps_tokens_sepFree (s : List Char) :
    ∀ tok ∈ splitSeps s, ∀ c ∈ tok, isSepChar c = false :=
  splitSepsAux_tokens_sepFree s false [] (fun c hc => absurd hc (List.not_mem_nil c))

theorem splitSepsAux_tokens_infix :
    ∀ (s : List Char) (inSep : Bool) (acc : List Char),
      (inSep = true → acc = []) →
      ∀ tok ∈ splitSepsAux s inSep acc, tok <:+: (acc.reverse ++ s) := by
  intro s
  induction s with
  | nil =>
    intro inSep acc _ tok htok
    have htok2 : tok = acc.reverse := List.mem_singleton.mp htok
    subst htok2
    rw [List.append_nil]
  | cons ch cs ih =>
    intro inSep acc hinv tok htok
    simp only [splitSepsAux] at htok
    by_cases hsep : isSepChar ch = true
    · rw [if_pos hsep] at htok
      cases inSep with
      | true =>
        rw [if_pos rfl] at htok
        have hacc : acc = [] := hinv rfl
        subst hacc
        have h2 := ih true [] (fun _ => rfl) tok htok
        rw [List.reverse_nil, List.nil_append] at h2 ⊢
        exact List.infix_cons h2
      | false =>
        rw [if_neg (by simp)] at htok
        rcases List.mem_cons.mp htok with rfl | htok
        · exact (List.prefix_append acc.reverse (ch :: cs)).isInfix
        · have h2 := ih true [] (fun _ => rfl) tok htok
          rw [List.reverse_nil, List.nil_append] at h2
          exact h2.trans (((List.suffix_cons ch cs).trans
            (List.suffix_append acc.reverse (ch :: cs))).isInfix)
    · rw [if_neg hsep] at htok
      have h2 := ih false (ch :: acc) (fun h => absurd h (by simp)) tok htok
      rw [List.reverse_cons, List.append_assoc, List.singleton_append] at h2
      exact h2

theorem splitSeps_tokens_infix (s : List Char) :
    ∀ tok ∈ splitSeps s, tok <:+: s := by
  intro tok htok
  have h := splitSepsAux_tokens_infix s false [] (fun h => absurd h (by simp)) tok htok
  rw [List.reverse_nil, List.nil_append] at h
  exact h

theorem splitSepsAux_sepFree_all :
    ∀ (s : List Char), (∀ c ∈ s, isSepChar c = false) →
      ∀ acc, splitSepsAux s false acc = [acc.reverse ++ s] := by
  intro s
  induction s with
  | nil =>
    intro _ acc
    rw [List.append_nil]
    rfl
  | cons ch cs ih =>
    intro hs acc
    have hch : isSepChar ch = false := hs ch (List.mem_cons_self ch cs)
    simp only [splitSepsAux]
    rw [if_neg (by rw [hch]; exact Bool.false_ne_true)]
    rw [ih (fun c hc => hs c (List.mem_cons_of_mem ch hc)) (ch :: acc)]
    rw [List.reverse_cons, List.append_assoc, List.singleton_append]

theorem splitSepsAux_append_token :
    ∀ (t : List Char), (∀ c ∈ t, isSepChar c = false) →
      ∀ (s acc : List Char),
        splitSepsAux (t ++ s) false acc = splitSepsAux s false (t.reverse ++ acc) := by
  intro t
  induction t with
  | nil =>
    intro _ s acc
    rfl
  | cons ch t' ih =>
    intro ht s acc
    have hch : isSepChar ch = false := ht ch (List.mem_cons_self ch t')
    show splitSepsAux (ch :: (t' ++ s)) false acc = _
    simp only [splitSepsAux]
    rw [if_neg (by rw [hch]; exact Bool.false_ne_true)]
    rw [ih (fun c hc => ht c (List.mem_cons_of_mem ch hc)) s (ch :: acc)]
    rw [List.reverse_cons, List.append_assoc, List.singleton_append]

theorem splitSepsAux_cons_sep (ch : Char) (h : isSepChar ch = true) (cs acc : List Char) :
    splitSepsAux (ch :: cs) false acc = acc.reverse :: splitSepsAux cs true [] := by
  simp only [splitSepsAux]
  rw [if_pos h, if_neg (by simp)]

theorem splitSepsAux_cons_sep_inSep (ch : Char) (h : isSepChar ch = true) (cs acc : List Char) :
    splitSepsAux (ch :: cs) true acc = splitSepsAux cs true acc := by
  simp only [splitSepsAux]
  rw [if_pos h]
  simp

theorem splitSepsAux_cons_nonsep (ch : Char) (h : isSepChar ch = false) (cs : List Char)
    (inSep : Bool) (acc : List Char) :
    splitSepsAux (ch :: cs) inSep acc = splitSepsAux cs false (ch :: acc) := by
  simp only [splitSepsAux]
  rw [if_neg (by rw [h]; exact Bool.false_ne_true)]

theorem splitSepsAux_tailJoin :
    ∀ (ts : List (List Char)),
      (∀ tok ∈ ts, tok ≠ [] ∧ ∀ c ∈ tok, isSepChar c = false) →
      ∀ acc, splitSepsAux (tailJoin ts) false acc = acc.reverse :: ts := by
  intro ts
  induction ts with
  | nil =>
    intro _ acc
    rfl
  | cons x xs ih =>
    intro hts acc
    obtain ⟨hxne, hxsf⟩ := hts x (List.mem_cons_self x xs)
    rw [show tailJoin (x :: xs) = ',' :: ' ' :: (x ++ tailJoin xs) from rfl]
    rw [splitSepsAux_cons_sep ',' rfl _ acc, splitSepsAux_cons_sep_inSep ' ' rfl _ []]
    cases x with
    | nil => exact absurd rfl hxne
    | cons c x' =>
      rw [List.cons_append, splitSepsAux_cons_nonsep c (hxsf c (List.mem_cons_self c x')) _ _ []]
      rw [splitSepsAux_append_token x' (fun a ha => hxsf a (List.mem_cons_of_mem c ha)) _ [c]]
      rw [ih (fun tok htok => hts tok (List.mem_cons_of_mem (c :: x') htok))]
      congr 2
      simp

theorem splitSeps_interJoin (ts : List (List Char)) (hne : ts ≠ [])
    (hts : ∀ tok ∈ ts, tok ≠ [] ∧ ∀ c ∈ tok, isSepChar c = false) :
    splitSeps (interJoin ts) = ts := by
  cases ts with
  | nil => exact absurd rfl hne
  | cons h t =>
    show splitSepsAux (h ++ tailJoin t) false [] = h :: t
    obtain ⟨hhne, hhsf⟩ := hts h (List.mem_cons_self h t)
    rw [splitSepsAux_append_token h hhsf _ []]
    rw [splitSepsAux_tailJoin t (fun tok htok => hts tok (List.mem_cons_of_mem h htok)) _]
    rw [List.append_nil, List.reverse_reverse]

theorem prefix_append_comma (w r : List Char) (hcomma : ',' ∉ w) :
    ∀ t : List Char, w <+: (t ++ ',' :: r) → w <+: t := by
  induction w with
  | nil =>
    intro t _
    exact List.nil_prefix
  | cons a w' ih =>
    intro t h
    cases t with
    | nil =>
      rw [List.nil_append, List.cons_prefix_cons] at h
      exact absurd h.1 (fun ha => hcomma (ha ▸ List.mem_cons_self a w'))
    | cons c t' =>
      rw [List.cons_append, List.cons_prefix_cons] at h
      rw [List.cons_prefix_cons]
      exact ⟨h.1, ih (fun hm => hcomma (List.mem_cons_of_mem a hm)) t' h.2⟩

theorem infix_append_comma (w r : List Char) (hcomma : ',' ∉ w) :
    ∀ t : List Char, w <:+: (t ++ ',' :: r) → w <:+: t ∨ w <:+: (',' :: r) := by
  intro t
  induction t with
  | nil =>
    intro h
    rw [List.nil_append] at h
    exact Or.inr h
  | cons c t' ih =>
    intro h
    rw [List.cons_append, List.infix_cons_iff] at h
    rcases h with h | h
    · have h2 : w <+: c :: t' := prefix_append_comma w r hcomma (c :: t') (by rwa [List.cons_append])
      exact Or.inl h2.isInfix
    · rcases ih h with h | h
      · exact Or.inl (List.infix_cons h)
      · exact Or.inr h

theorem not_infix_interJoin (w : List Char) (hw : w ≠ []) (hcomma : ',' ∉ w)
    (hhead : w.head? ≠ some ' ') :
    ∀ ts : List (List Char), (∀ tok ∈ ts, ¬ w <:+: tok) → ¬ w <:+: interJoin ts := by
  intro ts
  induction ts with
  | nil =>
    intro _ h
    exact hw (List.infix_nil.mp h)
  | cons x xs ih =>
    intro htok h
    cases xs with
    | nil =>
      rw [show interJoin [x] = x ++ [] from rfl, List.append_nil] at h
      exact htok x (List.mem_cons_self x []) h
    | cons y ys =>
      rw [show interJoin (x :: y :: ys) = x ++ ',' :: (' ' :: (y ++ tailJoin ys)) from rfl] at h
      rcases infix_append_comma w _ hcomma x h with h | h
      · exact htok x (List.mem_cons_self x (y :: ys)) h
      · rw [List.infix_cons_iff] at h
        rcases h with h | h
        · cases w with
          | nil => exact hw rfl
          | cons a w' =>
            rw [List.cons_prefix_cons] at h
            exact hcomma (h.1 ▸ List.mem_cons_self a w')
        · rw [List.infix_cons_iff] at h
          rcases h with h | h
          · cases w with
            | nil => exact hw rfl
            | cons a w' =>
              rw [List.cons_prefix_cons] at h
              exact hhead (by simp [h.1])
          · exact ih (fun tok htk => htok tok (List.mem_cons_of_mem x htk)) h

theorem dropWhile_eq_self_of_all (p : Char → Bool) :
    ∀ l : List Char, (∀ c ∈ l, p c = false) → l.dropWhile p = l := by
  intro l
  cases l with
  | nil => intro _; rfl
  | cons c cs =>
    intro h
    rw [List.dropWhile_cons, if_neg]
    rw [h c (List.mem_cons_self c cs)]
    exact Bool.false_ne_true

theorem sepFree_not_space (t : List Char) (h : ∀ c ∈ t, isSepChar c = false) :
    ∀ c ∈ t, isSpaceChar c = false := by
  intro c hc
  have h2 := h c hc
  unfold isSepChar at h2
  rcases Bool.or_eq_false_iff.mp h2 with ⟨_, h4⟩
  exact h4

theorem stripChars_eq_self (t : List Char) (h : ∀ c ∈ t, isSepChar c = false) :
    stripChars t = t := by
  unfold stripChars
  have hsp := sepFree_not_space t h
  rw [dropWhile_eq_self_of_all _ t hsp]
  rw [dropWhile_eq_self_of_all _ t.reverse (fun c hc => hsp c (List.mem_reverse.mp hc))]
  exact List.reverse_reverse t

theorem lowerChars_eq_self (t : List Char) (h : ∀ c ∈ t, Char.toLower c = c) :
    lowerChars t = t :=
  (List.map_congr_left h).trans (List.map_id t)

theorem joinComma_foldl_data :
    ∀ (xs : List (List Char)) (a : String),
      (List.foldl (fun acc x => acc ++ ", " ++ x) a (xs.map String.mk)).data =
        a.data ++ tailJoin xs := by
  intro xs
  induction xs with
  | nil =>
    intro a
    rw [List.map_nil, List.foldl_nil]
    rw [show tailJoin [] = [] from rfl, List.append_nil]
  | cons x xs ih =>
    intro a
    rw [List.map_cons, List.foldl_cons, ih]
    rw [String.data_append, String.data_append]
    show a.data ++ [',', ' '] ++ x ++ tailJoin xs = a.data ++ (',' :: ' ' :: (x ++ tailJoin xs))
    rw [List.append_assoc, List.append_assoc]
    rfl

theorem joinComma_data (ts : List (List Char)) :
    (joinComma (ts.map String.mk)).data = interJoin ts := by
  cases ts with
  | nil => rfl
  | cons x xs =>
    show (List.foldl (fun acc y => acc ++ ", " ++ y) (String.mk x) (xs.map String.mk)).data =
      x ++ tailJoin xs
    rw [joinComma_foldl_data xs (String.mk x)]

/-! Assembly of the idempotence argument. -/

theorem fillerWords_shape :
    ∀ w ∈ fillerWords, w.data ≠ [] ∧ ',' ∉ w.data ∧ w.data.head? ≠ some ' ' := by decide

theorem mem_tailJoin :
    ∀ (ts : List (List Char)) (a : Char), a ∈ tailJoin ts →
      (∃ tok ∈ ts, a ∈ tok) ∨ a = ',' ∨ a = ' ' := by
  intro ts
  induction ts with
  | nil =>
    intro a ha
    exact absurd ha (List.not_mem_nil a)
  | cons x xs ih =>
    intro a ha
    rw [show tailJoin (x :: xs) = ',' :: ' ' :: (x ++ tailJoin xs) from rfl] at ha
    rcases List.mem_cons.mp ha with rfl | ha
    · exact Or.inr (Or.inl rfl)
    · rcases List.mem_cons.mp ha with rfl | ha
      · exact Or.inr (Or.inr rfl)
      · rcases List.mem_append.mp ha with ha | ha
        · exact Or.inl ⟨x, List.mem_cons_self x xs, ha⟩
        · rcases ih a ha with ⟨tok, htok, hmem⟩ | ha
          · exact Or.inl ⟨tok, List.mem_cons_of_mem x htok, hmem⟩
          · exact Or.inr ha

theorem mem_interJoin (ts : List (List Char)) (a : Char) (ha : a ∈ interJoin ts) :
    (∃ tok ∈ ts, a ∈ tok) ∨ a = ',' ∨ a = ' ' := by
  cases ts with
  | nil => exact absurd ha (List.not_mem_nil a)
  | cons x xs =>
    rcases List.mem_append.mp ha with ha | ha
    · exact Or.inl ⟨x, List.mem_cons_self x xs, ha⟩
    · rcases mem_tailJoin xs a ha with ⟨tok, htok, hmem⟩ | ha
      · exact Or.inl ⟨tok, List.mem_cons_of_mem x htok, hmem⟩
      · exact Or.inr ha

theorem cleanTokens_mem (vocab : List String) (input : List Char) :
    ∀ tok ∈ cleanTokens vocab input,
      String.mk tok ∈ vocab ∧ (∀ c ∈ tok, isSepChar c = false)
        ∧ tok <:+: applyFillers (lowerChars input) := by
  intro tok htok
  simp only [cleanTokens] at htok
  rw [List.mem_map] at htok
  obtain ⟨tok0, htok0, rfl⟩ := htok
  rw [List.mem_filter] at htok0
  obtain ⟨hmem0, hp0⟩ := htok0
  have hsf0 : ∀ c ∈ tok0, isSepChar c = false :=
    splitSeps_tokens_sepFree _ tok0 hmem0
  have hstrip : stripChars tok0 = tok0 := stripChars_eq_self tok0 hsf0
  rw [hstrip]
  refine ⟨?_, hsf0, splitSeps_tokens_infix _ tok0 hmem0⟩
  rw [contains_eq_decide_mem] at hp0
  have h2 := of_decide_eq_true hp0
  rwa [hstrip] at h2

theorem cleanTokens_lower_fixed (vocab : List String) (input : List Char) :
    ∀ tok ∈ cleanTokens vocab input, ∀ c ∈ tok, Char.toLower c = c := by
  intro tok htok c hc
  have hinf := (cleanTokens_mem vocab input tok htok).2.2
  have hctext : c ∈ applyFillers (lowerChars input) := hinf.subset hc
  rcases mem_applyFillers _ c hctext with hcl | hsp
  · unfold lowerChars at hcl
    rw [List.mem_map] at hcl
    obtain ⟨c0, _, rfl⟩ := hcl
    exact toLower_idem c0
  · subst hsp
    exact toLower_eq_self_of_not_upper ' ' (by decide)

theorem cleanTokens_nil (vocab : List String) (hv : "" ∉ vocab) :
    cleanTokens vocab [] = [] := by
  show ((splitSeps (applyFillers (lowerChars []))).filter
      (fun t => vocab.contains (String.mk (stripChars t)))).map stripChars = []
  rw [show applyFillers (lowerChars []) = [] from rfl]
  rw [show splitSeps ([] : List Char) = [[]] from rfl]
  have hcf : vocab.contains (String.mk (stripChars [])) = false := by
    rw [show String.mk (stripChars []) = "" from rfl, contains_eq_decide_mem]
    exact decide_eq_false hv
  rw [List.filter_cons, if_neg (by rw [hcf]; exact Bool.false_ne_true)]
  rfl

theorem cleanTokens_interJoin (vocab : List String) (input : List Char) (hv : "" ∉ vocab) :
    cleanTokens vocab (interJoin (cleanTokens vocab input)) = cleanTokens vocab input := by
  by_cases hts : cleanTokens vocab input = []
  · rw [hts]
    exact cleanTokens_nil vocab hv
  · have htoks := cleanTokens_mem vocab input
    have htoks_ne : ∀ tok ∈ cleanTokens vocab input, tok ≠ [] := by
      intro tok htok h0
      subst h0
      exact hv ((htoks [] htok).1)
    have htoks_sf : ∀ tok ∈ cleanTokens vocab input, ∀ c ∈ tok, isSepChar c = false :=
      fun tok htok => (htoks tok htok).2.1
    -- lowercasing is the identity on the joined output
    have hlower : lowerChars (interJoin (cleanTokens vocab input)) =
        interJoin (cleanTokens vocab input) := by
      apply lowerChars_eq_self
      intro c hc
      rcases mem_interJoin _ c hc with ⟨tok, htok, hmem⟩ | hc2
      · exact cleanTokens_lower_fixed vocab input tok htok c hmem
      · rcases hc2 with rfl | rfl
        · exact toLower_eq_self_of_not_upper ',' (by decide)
        · exact toLower_eq_self_of_not_upper ' ' (by decide)
    -- filler replacement is the identity on the joined output
    have hfill : applyFillers (interJoin (cleanTokens vocab input)) =
        interJoin (cleanTokens vocab input) := by
      apply applyFillers_eq_self
      intro w hw
      obtain ⟨hwne, hwcomma, hwhead⟩ := fillerWords_shape w hw
      apply not_infix_interJoin w.data hwne hwcomma hwhead
      intro tok htok hinf
      by_cases hspc : ' ' ∈ w.data
      · have hsp : ' ' ∈ tok := hinf.subset hspc
        have := htoks_sf tok htok ' ' hsp
        rw [show isSepChar ' ' = true from rfl] at this
        exact Bool.true_eq_false ▸ this ▸ rfl
      · have hwsp : spaceFree w.data := fun c hc heq => hspc (heq ▸ hc)
        exact applyFillers_no_filler w hw hwne hwsp (lowerChars input)
          (hinf.trans (htoks tok htok).2.2)
    -- splitting the joined output recovers the tokens
    have hsplit : splitSeps (interJoin (cleanTokens vocab input)) = cleanTokens vocab input :=
      splitSeps_interJoin _ hts (fun tok htok => ⟨htoks_ne tok htok, htoks_sf tok htok⟩)
    show ((splitSeps (applyFillers (lowerChars (interJoin (cleanTokens vocab input))))).filter
        (fun t => vocab.contains (String.mk (stripChars t)))).map stripChars = _
    rw [hlower, hfill, hsplit]
    have hkeep : (cleanTokens vocab input).filter
        (fun t => vocab.contains (String.mk (stripChars t))) = cleanTokens vocab input := by
      have h1 : (cleanTokens vocab input).filter
          (fun t => vocab.contains (String.mk (stripChars t))) =
            (cleanTokens vocab input).filter (fun _ => true) := by
        apply List.filter_congr
        intro tok htok
        rw [stripChars_eq_self tok (htoks_sf tok htok), contains_eq_decide_mem]
        exact decide_eq_true (htoks tok htok).1
      rw [h1, List.filter_true]
    rw [hkeep]
    have h2 : (cleanTokens vocab input).map stripChars =
        (cleanTokens vocab input).map id :=
      List.map_congr_left (fun tok htok => stripChars_eq_self tok (htoks_sf tok htok))
    rw [h2, List.map_id]

/-- C8 counterexample: the vocabulary ["", "xgotz"] contains the empty string;
"xgotz" is a (single-member) comma/space-separated list of vocabulary members;
extraction yields [] (the filler "got" mangles the member), but re-extracting
the comma/space-joined output "" yields [""], not []. -/
theorem extract_idempotent_counterexample :
    (∀ m ∈ ["xgotz"], m ∈ ["", "xgotz"])
      ∧ joinComma ["xgotz"] = "xgotz"
      ∧ clean_symptom_input ["", "xgotz"] "xgotz" = []
      ∧ clean_symptom_input ["", "xgotz"]
          (joinComma (clean_symptom_input ["", "xgotz"] "xgotz")) = [""] :=
  ⟨by decide, by rfl, by rfl, by rfl⟩

/-- C8 (amended): for every vocabulary that does not contain the empty string
(the data model's symptom identifiers are non-empty), extraction is idempotent
under comma/space joining — re-extracting the `", "`-joined output of any
extraction returns that output unchanged.  This holds for every input string,
in particular for every comma/space-separated list of vocabulary members. -/
theorem extract_idempotent_amended (vocab : List String) (input : String)
    (hv : "" ∉ vocab) :
    clean_symptom_input vocab (joinComma (clean_symptom_input vocab input)) =
      clean_symptom_input vocab input := by
  unfold clean_symptom_input
  rw [joinComma_data (cleanTokens vocab input.data)]
  rw [cleanTokens_interJoin vocab input.data hv]

/-- Witness for the amended C8 on the spec's example: the first extraction
returns ["fever", "cough"]; re-extracting "fever, cough" returns it again. -/
theorem extract_idempotent_amended_witness :
    clean_symptom_input ["fever", "cough", "rash"]
        (joinComma (clean_symptom_input ["fever", "cough", "rash"] "I have fever and cough")) =
      clean_symptom_input ["fever", "cough", "rash"] "I have fever and cough"
      ∧ clean_symptom_input ["fever", "cough", "rash"] "I have fever and cough" =
          ["fever", "cough"] :=
  ⟨extract_idempotent_amended ["fever", "cough", "rash"] "I have fever and cough" (by decide),
   by rfl⟩

end SehatSaathi
